import Mathlib

/-!
# Verification of the dataset pipeline of fsrs-rs (`src/dataset.rs`)

This file is a shallow embedding, in Lean 4, of the data model and the
operations of `src/dataset.rs`: the `FSRSItem`/`FSRSReview` record types,
the `history`/`current` accessors, the batcher (`FSRSBatcher::batch`),
the `FSRSDataset` wrapper, and the outlier filter (`filter_outlier`,
`split_data`).

Modelling conventions:
* Rust `u32` fields hold small day counts and ratings; they are modelled
  as `Nat` (no arithmetic on them ever comes near `2^32`).
* A Rust panic (`unwrap`, `expect`) is modelled by an `Option` result:
  `none` is the panic.
* `usize` subtraction `len - 1` appears twice in the source
  (`FSRSItem::history` and the batcher's `pad_size`).  In release builds
  it wraps to `2^64 - 1` when `len = 0`; it is modelled by truncated
  `Nat` subtraction, which is extensionally the same here: in `history`
  the subtraction feeds `Iterator::take` applied to the empty review
  list, and `take (2^64 - 1) [] = take 0 [] = []`; in the batcher the
  underflow happens only when every item has zero reviews, and then the
  batcher fails at `current()` under both readings.
* Tensors are modelled as (lists of) lists of `Nat`; all values the code
  ever stores in them are integral (`u32` casts and 0/1 labels).  The
  tensor `transpose` of a rectangular `[n, pad]` matrix is modelled as
  the index-swapping transpose.
* Rust `HashMap` iteration order is unspecified.  The grouping in
  `filter_outlier` is modelled by first-occurrence-ordered grouping;
  this fixes one of the admissible orders.  The per-rating-group facts
  proved below are independent of that choice, because the source sorts
  each rating group's sub-group list by a total order (sizes descending,
  then the distinct `delta_t` keys ascending) before using it, and never
  lets one rating group influence another.
-/

/-- `FSRSReview` from the source: a rating in 1..4 and the number of
days that passed, both `u32`. -/
structure FSRSReview where
  rating : Nat
  delta_t : Nat
deriving DecidableEq, Repr, Inhabited

/-- `FSRSItem` from the source: the chronological list of reviews of a
card, ending with the current review. -/
structure FSRSItem where
  reviews : List FSRSReview
deriving DecidableEq, Repr, Inhabited

/-- `FSRSItem::history`: `self.reviews.iter().take(self.reviews.len() - 1)`.
The `usize` subtraction wraps on the empty list in release builds, but
`take` of anything from `[]` is `[]`, so truncated subtraction models it
exactly (see the header). -/
def FSRSItem.history (item : FSRSItem) : List FSRSReview :=
  item.reviews.take (item.reviews.length - 1)

/-- `FSRSItem::current`: `self.reviews.last().unwrap()`; `none` models
the panic on an item with no reviews. -/
def FSRSItem.current (item : FSRSItem) : Option FSRSReview :=
  item.reviews.getLast?

/-- The batch produced by `FSRSBatcher::batch`, with the two `[pad_size,
batch_size]` history tensors stored as lists of time-step rows. -/
structure FSRSBatch where
  t_historys : List (List Nat)
  r_historys : List (List Nat)
  delta_ts : List Nat
  labels : List Nat
deriving DecidableEq, Repr

/-- `Iterator::max` over a list of `usize`: `none` on the empty list,
otherwise the maximum. -/
def listMaxNat : List Nat → Option Nat
  | [] => none
  | x :: xs =>
    match listMaxNat xs with
    | none => some x
    | some m => some (max x m)

/-- `Vec::resize(n, 0)`: truncate to `n` elements or extend with `0`s
up to length `n`. -/
def vecResize (l : List Nat) (n : Nat) : List Nat :=
  l.take n ++ List.replicate (n - l.length) 0

/-- Transpose of the rectangular `[rows.length, pad]` matrix `rows`
(each row has length `pad`), as performed by `Tensor::cat` followed by
`Tensor::transpose`: entry `(t, i)` of the result is entry `(i, t)` of
the input. -/
def transposeT (pad : Nat) (rows : List (List Nat)) : List (List Nat) :=
  (List.range pad).map (fun t => rows.map (fun r => r.getD t 0))

/-- The second per-item pass of `FSRSBatcher::batch`: collect
`item.current()` for every item, failing (as the `unwrap` does) if some
item has no reviews. -/
def collectCurrents : List FSRSItem → Option (List FSRSReview)
  | [] => some []
  | it :: rest =>
    match it.current, collectCurrents rest with
    | some c, some cs => some (c :: cs)
    | _, _ => none

/-- `FSRSBatcher::batch`.  `none` models the two panics: the
`expect("FSRSItem is empty")` on an empty item list, and the `unwrap`
inside `current()` on a zero-review item. -/
def FSRSBatcher.batch (items : List FSRSItem) : Option FSRSBatch :=
  match listMaxNat (items.map (fun it => it.reviews.length)) with
  | none => none
  | some m =>
    let pad_size := m - 1
    let time_rows :=
      items.map (fun it => vecResize (it.history.map (fun r => r.delta_t)) pad_size)
    let rating_rows :=
      items.map (fun it => vecResize (it.history.map (fun r => r.rating)) pad_size)
    match collectCurrents items with
    | none => none
    | some currents =>
      some
        { t_historys := transposeT pad_size time_rows
          r_historys := transposeT pad_size rating_rows
          delta_ts := currents.map (fun r => r.delta_t)
          labels := currents.map (fun r => if r.rating = 1 then 0 else 1) }

/-- `FSRSDataset`: a vector of items. -/
structure FSRSDataset where
  items : List FSRSItem

/-- `Dataset::len` for `FSRSDataset`. -/
def FSRSDataset.len (d : FSRSDataset) : Nat :=
  d.items.length

/-- `Dataset::get` for `FSRSDataset`: `self.items.get(index).cloned()`. -/
def FSRSDataset.get (d : FSRSDataset) (index : Nat) : Option FSRSItem :=
  d.items.get? index

/-- `From<Vec<FSRSItem>> for FSRSDataset`. -/
def FSRSDataset.fromItems (items : List FSRSItem) : FSRSDataset :=
  ⟨items⟩

/-- The grouping key of the outer `HashMap` in `filter_outlier`:
`item.reviews.first().unwrap().rating` (the caller guards the unwrap). -/
def firstRating (item : FSRSItem) : Nat :=
  (item.reviews.headD default).rating

/-- The grouping key of the inner `HashMap` in `filter_outlier`:
`item.current().delta_t` (the caller guards the unwrap). -/
def currentDelta (item : FSRSItem) : Nat :=
  (item.reviews.getLastD default).delta_t

/-- The distinct key values occurring in `items`, in first-occurrence
order. -/
def groupKeys (key : FSRSItem → Nat) (items : List FSRSItem) : List Nat :=
  (items.map key).dedup

/-- `HashMap` grouping by `key`: one `(key, bucket)` pair per distinct
key, the bucket holding the matching items in input order (the order in
which the source pushes them). -/
def groupByKey (key : FSRSItem → Nat) (items : List FSRSItem) :
    List (Nat × List FSRSItem) :=
  (groupKeys key items).map (fun k => (k, items.filter (fun it => key it == k)))

/-- The comparator `filter_outlier` sorts each rating group's sub-group
list by: `a` comes before `b` when `a`'s bucket is bigger, with ties
broken by ascending `delta_t` key. -/
def subGroupRank (a b : Nat × List FSRSItem) : Prop :=
  b.2.length < a.2.length ∨ (a.2.length = b.2.length ∧ a.1 ≤ b.1)

instance : DecidableRel subGroupRank := fun a b => by
  unfold subGroupRank
  infer_instance

instance : IsTotal (Nat × List FSRSItem) subGroupRank := ⟨fun a b => by
  unfold subGroupRank
  omega⟩

instance : IsTrans (Nat × List FSRSItem) subGroupRank := ⟨fun a b c hab hbc => by
  unfold subGroupRank at hab hbc ⊢
  omega⟩

/-- The `sub_groups.sort_by(...)` call of `filter_outlier`. -/
def sortSubGroups (sgs : List (Nat × List FSRSItem)) :
    List (Nat × List FSRSItem) :=
  List.insertionSort subGroupRank sgs

/-- `sub_groups.iter().map(|(_, vec)| vec.len()).sum()`. -/
def sumLens (l : List (Nat × List FSRSItem)) : Nat :=
  (l.map (fun p => p.2.length)).sum

/-- The removal loop of `filter_outlier` over the reversed sorted
sub-group list: a sub-group is retained (appended to the output) when
removing it would push the running removed count over the budget,
otherwise it is dropped and counted. -/
def removePass (budget : Nat) : Nat → List (Nat × List FSRSItem) → List FSRSItem
  | _, [] => []
  | removed, (_, sg) :: rest =>
    if budget < removed + sg.length then sg ++ removePass budget removed rest
    else removePass budget (removed + sg.length) rest

/-- The body of `filter_outlier`'s per-rating-group loop: sort the
sub-groups, compute the total and the `total / 20` budget, and run the
removal pass over the reversed sorted list. -/
def ratingGroupOutput (sgs : List (Nat × List FSRSItem)) : List FSRSItem :=
  let sorted := sortSubGroups sgs
  let total := sumLens sorted
  removePass (total / 20) 0 sorted.reverse

/-- `filter_outlier` on inputs where no unwrap fires: group by first
rating, then by current `delta_t`, and keep each rating group's
`ratingGroupOutput`. -/
def filterOutlierCore (items : List FSRSItem) : List FSRSItem :=
  (groupByKey firstRating items).flatMap
    (fun g => ratingGroupOutput (groupByKey currentDelta g.2))

/-- `filter_outlier`; `none` models the `first().unwrap()` panic hit as
soon as some item has no reviews. -/
def filter_outlier (items : List FSRSItem) : Option (List FSRSItem) :=
  if items.all (fun it => !it.reviews.isEmpty) then some (filterOutlierCore items)
  else none

/-- `split_data`: `partition(|item| item.reviews.len() == 2)` keeps
input order in both halves, so it is the pair of complementary filters;
only the first half goes through `filter_outlier`. -/
def split_data (items : List FSRSItem) :
    Option (List FSRSItem × List FSRSItem) :=
  match filter_outlier (items.filter (fun it => it.reviews.length == 2)) with
  | none => none
  | some pre => some (pre, items.filter (fun it => !(it.reviews.length == 2)))

/-- The concrete 8-item batch of the `tests::batcher` test: histories
with ratings `[4]`, `[4,3]`, `[4]`, `[4,3]`, `[4,3,3]`, `[4,3,3,3]`,
`[1]`, `[1,1]` and the deltas used there. -/
def exampleBatchItems : List FSRSItem :=
  [⟨[⟨4, 0⟩, ⟨3, 5⟩]⟩,
   ⟨[⟨4, 0⟩, ⟨3, 5⟩, ⟨3, 11⟩]⟩,
   ⟨[⟨4, 0⟩, ⟨3, 2⟩]⟩,
   ⟨[⟨4, 0⟩, ⟨3, 2⟩, ⟨3, 6⟩]⟩,
   ⟨[⟨4, 0⟩, ⟨3, 2⟩, ⟨3, 6⟩, ⟨3, 16⟩]⟩,
   ⟨[⟨4, 0⟩, ⟨3, 2⟩, ⟨3, 6⟩, ⟨3, 16⟩, ⟨3, 39⟩]⟩,
   ⟨[⟨1, 0⟩, ⟨1, 1⟩]⟩,
   ⟨[⟨1, 0⟩, ⟨1, 1⟩, ⟨3, 1⟩]⟩]

/-! ## Helper lemmas -/

theorem listMaxNat_eq_none_iff (l : List Nat) : listMaxNat l = none ↔ l = [] := by
  cases l with
  | nil => simp [listMaxNat]
  | cons x xs =>
    cases h : listMaxNat xs <;> simp [listMaxNat, h]

theorem listMaxNat_le (l : List Nat) (m : Nat) (h : listMaxNat l = some m) :
    ∀ x ∈ l, x ≤ m := by
  induction l generalizing m with
  | nil => simp
  | cons x xs ih =>
    cases hxs : listMaxNat xs with
    | none =>
      rw [listMaxNat, hxs] at h
      obtain rfl : x = m := by simpa using h
      obtain rfl : xs = [] := (listMaxNat_eq_none_iff xs).mp hxs
      simp
    | some m0 =>
      rw [listMaxNat, hxs] at h
      obtain rfl : max x m0 = m := by simpa using h
      intro y hy
      rcases List.mem_cons.mp hy with rfl | hy
      · exact Nat.le_max_left _ _
      · exact Nat.le_trans (ih m0 hxs y hy) (Nat.le_max_right _ _)

theorem current_eq_none_iff (it : FSRSItem) :
    it.current = none ↔ it.reviews = [] := by
  simp [FSRSItem.current]

theorem collectCurrents_eq_none_iff (items : List FSRSItem) :
    collectCurrents items = none ↔ ∃ it ∈ items, it.reviews = [] := by
  induction items with
  | nil => simp [collectCurrents]
  | cons it rest ih =>
    cases hc : it.current with
    | none =>
      have : it.reviews = [] := (current_eq_none_iff it).mp hc
      simp [collectCurrents, hc, this]
    | some c =>
      have hne : ¬ it.reviews = [] := by
        intro h
        rw [(current_eq_none_iff it).mpr h] at hc
        cases hc
      cases hr : collectCurrents rest with
      | none => simp [collectCurrents, hc, hr, ih.mp hr]
      | some cs =>
        have : ¬ ∃ x ∈ rest, x.reviews = [] := fun h => by
          rw [← ih, hr] at h
          cases h
        simp [collectCurrents, hc, hr, hne, this]

theorem collectCurrents_length (items : List FSRSItem) (cs : List FSRSReview)
    (h : collectCurrents items = some cs) : cs.length = items.length := by
  induction items generalizing cs with
  | nil =>
    obtain rfl : cs = [] := by simpa [collectCurrents] using h.symm
    rfl
  | cons it rest ih =>
    cases hc : it.current with
    | none => rw [collectCurrents, hc] at h; cases h
    | some c =>
      cases hr : collectCurrents rest with
      | none => rw [collectCurrents, hc, hr] at h; cases h
      | some cs0 =>
        rw [collectCurrents, hc, hr] at h
        obtain rfl : c :: cs0 = cs := by simpa using h
        simp [ih cs0 hr]

theorem collectCurrents_get? (items : List FSRSItem) (cs : List FSRSReview)
    (h : collectCurrents items = some cs) (i : Nat) :
    cs.get? i = (items.get? i).bind FSRSItem.current := by
  induction items generalizing cs i with
  | nil =>
    obtain rfl : cs = [] := by simpa [collectCurrents] using h.symm
    simp
  | cons it rest ih =>
    cases hc : it.current with
    | none => rw [collectCurrents, hc] at h; cases h
    | some c =>
      cases hr : collectCurrents rest with
      | none => rw [collectCurrents, hc, hr] at h; cases h
      | some cs0 =>
        rw [collectCurrents, hc, hr] at h
        obtain rfl : c :: cs0 = cs := by simpa using h
        cases i with
        | zero => simp [hc]
        | succ n => simpa using ih cs0 hr n

theorem batch_eq_some (items : List FSRSItem) (m : Nat) (currents : List FSRSReview)
    (hm : listMaxNat (items.map (fun it => it.reviews.length)) = some m)
    (hc : collectCurrents items = some currents) :
    FSRSBatcher.batch items =
      some
        { t_historys :=
            transposeT (m - 1)
              (items.map (fun it => vecResize (it.history.map (fun r => r.delta_t)) (m - 1)))
          r_historys :=
            transposeT (m - 1)
              (items.map (fun it => vecResize (it.history.map (fun r => r.rating)) (m - 1)))
          delta_ts := currents.map (fun r => r.delta_t)
          labels := currents.map (fun r => if r.rating = 1 then 0 else 1) } := by
  unfold FSRSBatcher.batch
  rw [hm, hc]

/-! ## Claim theorems -/

/-- Claim C6: on the concrete 8-item batch of the `tests::batcher` test
(ratings histories `[4]`, `[4,3]`, `[4]`, `[4,3]`, `[4,3,3]`,
`[4,3,3,3]`, `[1]`, `[1,1]` with the given deltas), the batcher produces
the history tensors padded to width 4 with zeros, current deltas
`[5, 11, 2, 6, 16, 39, 1, 1]` and labels `[1, 1, 1, 1, 1, 1, 0, 1]`. -/
theorem batch_worked_example :
    FSRSBatcher.batch exampleBatchItems =
      some
        { t_historys :=
            [[0, 0, 0, 0, 0, 0, 0, 0],
             [0, 5, 0, 2, 2, 2, 0, 1],
             [0, 0, 0, 0, 6, 6, 0, 0],
             [0, 0, 0, 0, 0, 16, 0, 0]]
          r_historys :=
            [[4, 4, 4, 4, 4, 4, 1, 1],
             [0, 3, 0, 3, 3, 3, 0, 1],
             [0, 0, 0, 0, 3, 3, 0, 0],
             [0, 0, 0, 0, 0, 3, 0, 0]]
          delta_ts := [5, 11, 2, 6, 16, 39, 1, 1]
          labels := [1, 1, 1, 1, 1, 1, 0, 1] } := by
  decide

/-- Claim C10: a dataset built from a vector of items reports `len` equal
to the item count, and `get index` returns `some` copy of the indexed
item for `index < len` and `none` otherwise. -/
theorem dataset_len_get (items : List FSRSItem) (index : Nat) :
    (FSRSDataset.fromItems items).len = items.length ∧
    (index < items.length →
      (FSRSDataset.fromItems items).get index = some (items.getD index default)) ∧
    (items.length ≤ index → (FSRSDataset.fromItems items).get index = none) := by
  refine ⟨rfl, fun h => ?_, fun h => ?_⟩
  · rw [FSRSDataset.get, FSRSDataset.fromItems, List.getD_eq_getElem _ _ h]
    simp [List.get?_eq_getElem?, List.getElem?_eq_getElem h]
  · exact List.get?_eq_none.mpr h

theorem dataset_len_get_witness :
    (FSRSDataset.fromItems [⟨[⟨1, 2⟩]⟩]).len = 1 ∧
    (FSRSDataset.fromItems [⟨[⟨1, 2⟩]⟩]).get 0 = some ([⟨[⟨1, 2⟩]⟩].getD 0 default) ∧
    (FSRSDataset.fromItems [⟨[⟨1, 2⟩]⟩]).get 3 = none := by
  refine ⟨(dataset_len_get [⟨[⟨1, 2⟩]⟩] 0).1, ?_, ?_⟩
  · exact (dataset_len_get [⟨[⟨1, 2⟩]⟩] 0).2.1 (by decide)
  · exact (dataset_len_get [⟨[⟨1, 2⟩]⟩] 3).2.2 (by decide)

/-- Claim C7 counterexample: the claim says `FSRSBatcher::batch` does not
fail on an empty item list, but the source computes
`items.iter().map(..).max().expect("FSRSItem is empty")`, and `max` of an
empty iterator is `None`, so the batcher panics; in the embedding the
batch of `[]` is `none` (failure), not a defined no-op. -/
theorem batch_empty_counterexample : FSRSBatcher.batch [] = none := rfl

/-- Claim C7 amended: a zero-size batch is an error, not a no-op —
`FSRSBatcher::batch` fails exactly when the item list is empty (the
`expect("FSRSItem is empty")` panic) or some item has zero reviews (the
`unwrap` inside `current()`). -/
theorem batch_none_iff (items : List FSRSItem) :
    FSRSBatcher.batch items = none ↔
      items = [] ∨ ∃ it ∈ items, it.reviews = [] := by
  cases hm : listMaxNat (items.map (fun it => it.reviews.length)) with
  | none =>
    have hnil : items = [] := by
      have := (listMaxNat_eq_none_iff _).mp hm
      simpa using this
    subst hnil
    have hb : FSRSBatcher.batch ([] : List FSRSItem) = none := rfl
    simp [hb]
  | some m =>
    have hne : items ≠ [] := by
      intro h
      subst h
      simp [listMaxNat] at hm
    cases hc : collectCurrents items with
    | none =>
      have hex := (collectCurrents_eq_none_iff items).mp hc
      unfold FSRSBatcher.batch
      rw [hm, hc]
      simpa using Or.inr hex
    | some cs =>
      have hnone : ¬ ∃ it ∈ items, it.reviews = [] := by
        intro hex
        rw [← collectCurrents_eq_none_iff, hc] at hex
        cases hex
      rw [batch_eq_some items m cs hm hc]
      simp [hne, hnone]

/-- Claim C3 counterexample: the claim puts exactly the items with more
than two reviews in the train set, but `partition(|item|
item.reviews.len() == 2)` sends every item whose review count is not two
to the train set, including this one-review item. -/
theorem split_data_one_review_counterexample :
    split_data [⟨[⟨3, 0⟩]⟩] = some ([], [⟨[⟨3, 0⟩]⟩]) ∧
    ¬ 2 < (⟨[⟨3, 0⟩]⟩ : FSRSItem).reviews.length := by
  decide

/-- Claim C3 amended: `split_data` puts exactly the items with exactly
two reviews into the pretrain set and every other item — more than two
reviews, or fewer than two — into the train set; only the pretrain set
is passed through `filter_outlier` (which always succeeds on it), and
the train set is returned unfiltered. -/
theorem split_data_partition_amended (items : List FSRSItem) :
    split_data items =
      some (filterOutlierCore (items.filter (fun it => it.reviews.length == 2)),
        items.filter (fun it => !(it.reviews.length == 2))) ∧
    (∀ it : FSRSItem,
      it ∈ items.filter (fun it => it.reviews.length == 2) ↔
        it ∈ items ∧ it.reviews.length = 2) ∧
    (∀ it : FSRSItem,
      it ∈ items.filter (fun it => !(it.reviews.length == 2)) ↔
        it ∈ items ∧ it.reviews.length ≠ 2) := by
  refine ⟨?_, fun it => ?_, fun it => ?_⟩
  · have hall : (items.filter (fun it => it.reviews.length == 2)).all
        (fun it => !it.reviews.isEmpty) = true := by
      rw [List.all_eq_true]
      intro it hit
      have h2 : it.reviews.length = 2 := by
        have := (List.mem_filter.mp hit).2
        simpa using this
      cases hrev : it.reviews with
      | nil => rw [hrev] at h2; simp at h2
      | cons a l => simp [hrev]
    unfold split_data filter_outlier
    rw [if_pos hall]
  · simp [List.mem_filter]
  · simp [List.mem_filter]

/-- Claim C5: for every item of a successfully batched list, the 1-D
`delta_ts` entry is that item's current (last) review `delta_t`, and the
label entry is 0 exactly when the current rating is 1, else 1. -/
theorem batch_current_delta_and_label (items : List FSRSItem) (b : FSRSBatch)
    (hb : FSRSBatcher.batch items = some b) (i : Nat) (r : FSRSReview)
    (hr : (items.get? i).bind FSRSItem.current = some r) :
    b.delta_ts.get? i = some r.delta_t ∧
    b.labels.get? i = some (if r.rating = 1 then 0 else 1) ∧
    (b.labels.get? i = some 0 ↔ r.rating = 1) := by
  cases hm : listMaxNat (items.map (fun it => it.reviews.length)) with
  | none =>
    unfold FSRSBatcher.batch at hb
    rw [hm] at hb
    cases hb
  | some m =>
    cases hc : collectCurrents items with
    | none =>
      unfold FSRSBatcher.batch at hb
      rw [hm, hc] at hb
      cases hb
    | some currents =>
      rw [batch_eq_some items m currents hm hc] at hb
      obtain rfl := Option.some.inj hb
      have hcur : currents[i]? = some r := by
        rw [← List.get?_eq_getElem?, collectCurrents_get? items currents hc i]
        exact hr
      refine ⟨?_, ?_, ?_⟩
      · simp [List.get?_eq_getElem?, List.getElem?_map, hcur]
      · simp [List.get?_eq_getElem?, List.getElem?_map, hcur]
      · simp only [List.get?_eq_getElem?, List.getElem?_map, hcur, Option.map_some']
        constructor
        · intro h
          by_contra hne
          rw [if_neg hne] at h
          simp at h
        · intro h
          simp [h]

theorem batch_current_delta_and_label_witness :
    (FSRSBatch.mk [] [] [7] [1]).delta_ts.get? 0 = some (FSRSReview.mk 3 7).delta_t ∧
    (FSRSBatch.mk [] [] [7] [1]).labels.get? 0 =
      some (if (FSRSReview.mk 3 7).rating = 1 then 0 else 1) ∧
    ((FSRSBatch.mk [] [] [7] [1]).labels.get? 0 = some 0 ↔ (FSRSReview.mk 3 7).rating = 1) :=
  batch_current_delta_and_label [⟨[⟨3, 7⟩]⟩] (FSRSBatch.mk [] [] [7] [1])
    (by decide) 0 ⟨3, 7⟩ (by decide)

theorem collectCurrents_exists (items : List FSRSItem)
    (h : ∀ it ∈ items, it.reviews ≠ []) :
    ∃ cs, collectCurrents items = some cs := by
  cases hc : collectCurrents items with
  | none =>
    obtain ⟨it, hit, hnil⟩ := (collectCurrents_eq_none_iff items).mp hc
    exact absurd hnil (h it hit)
  | some cs => exact ⟨cs, rfl⟩

theorem listMaxNat_all_eq :
    ∀ (l : List Nat) (c : Nat), l ≠ [] → (∀ x ∈ l, x = c) → listMaxNat l = some c
  | [], _, hne, _ => absurd rfl hne
  | [x], c, _, h => by
    obtain rfl := h x (by simp)
    rfl
  | x :: y :: ys, c, _, h => by
    have hx : x = c := h x (by simp)
    have hrec := listMaxNat_all_eq (y :: ys) c (by simp)
      (fun z hz => h z (List.mem_cons_of_mem _ hz))
    have hstep : listMaxNat (x :: y :: ys) =
        (match listMaxNat (y :: ys) with
          | none => some x
          | some m => some (max x m)) := rfl
    subst hx
    rw [hstep, hrec]
    simp

/-- Claim C8: when every item of a non-empty batch has exactly one
review, `pad_size = 0` (the review-count maximum is 1), the history
tensors are empty matrices with zero time steps, and the batcher still
succeeds and produces the current `delta_ts` and `labels` tensors. -/
theorem batch_single_review_degenerate (items : List FSRSItem)
    (hne : items ≠ []) (h1 : ∀ it ∈ items, it.reviews.length = 1) :
    listMaxNat (items.map (fun it => it.reviews.length)) = some 1 ∧
    ∃ currents : List FSRSReview,
      collectCurrents items = some currents ∧
      currents.length = items.length ∧
      FSRSBatcher.batch items =
        some { t_historys := [], r_historys := [],
               delta_ts := currents.map (fun r => r.delta_t),
               labels := currents.map (fun r => if r.rating = 1 then 0 else 1) } := by
  have hm : listMaxNat (items.map (fun it => it.reviews.length)) = some 1 := by
    apply listMaxNat_all_eq
    · simpa using hne
    · intro x hx
      obtain ⟨it, hit, rfl⟩ := List.mem_map.mp hx
      exact h1 it hit
  obtain ⟨cs, hc⟩ := collectCurrents_exists items (fun it hit hnil => by
    have := h1 it hit
    rw [hnil] at this
    cases this)
  refine ⟨hm, cs, hc, collectCurrents_length items cs hc, ?_⟩
  rw [batch_eq_some items 1 cs hm hc]
  simp [transposeT]

theorem batch_single_review_degenerate_witness :
    listMaxNat (([⟨[⟨1, 0⟩]⟩, ⟨[⟨4, 9⟩]⟩] : List FSRSItem).map
      (fun it => it.reviews.length)) = some 1 ∧
    ∃ currents : List FSRSReview,
      collectCurrents [⟨[⟨1, 0⟩]⟩, ⟨[⟨4, 9⟩]⟩] = some currents ∧
      currents.length = ([⟨[⟨1, 0⟩]⟩, ⟨[⟨4, 9⟩]⟩] : List FSRSItem).length ∧
      FSRSBatcher.batch [⟨[⟨1, 0⟩]⟩, ⟨[⟨4, 9⟩]⟩] =
        some { t_historys := [], r_historys := [],
               delta_ts := currents.map (fun r => r.delta_t),
               labels := currents.map (fun r => if r.rating = 1 then 0 else 1) } :=
  batch_single_review_degenerate [⟨[⟨1, 0⟩]⟩, ⟨[⟨4, 9⟩]⟩] (by decide) (by decide)

theorem history_length (it : FSRSItem) :
    it.history.length = it.reviews.length - 1 := by
  simp [FSRSItem.history]

theorem replicate_getD (k j : Nat) :
    (List.replicate k (0 : Nat)).getD j 0 = 0 := by
  rcases Nat.lt_or_ge j k with h | h
  · rw [List.getD_eq_getElem _ _ (by simpa using h)]
    simp
  · exact List.getD_eq_default _ _ (by simpa using h)

theorem vecResize_getD (l : List Nat) (n t : Nat) (hl : l.length ≤ n) :
    (vecResize l n).getD t 0 = l.getD t 0 := by
  unfold vecResize
  rw [List.take_of_length_le hl]
  rcases Nat.lt_or_ge t l.length with h | h
  · rw [List.getD_append _ _ _ _ h]
  · rw [List.getD_append_right _ _ _ _ h, List.getD_eq_default _ _ h, replicate_getD]

theorem transposeT_getD (pad : Nat) (rows : List (List Nat)) (t i : Nat)
    (ht : t < pad) :
    ((transposeT pad rows).getD t []).getD i 0 = (rows.getD i []).getD t 0 := by
  unfold transposeT
  have h1 : ((List.range pad).map (fun t => rows.map (fun r => r.getD t 0))).getD t [] =
      rows.map (fun r => r.getD t 0) := by
    rw [List.getD_eq_getElem _ _ (by simpa using ht)]
    simp
  rw [h1]
  rcases Nat.lt_or_ge i rows.length with h | h
  · rw [List.getD_eq_getElem (rows.map (fun r => r.getD t 0)) 0 (by simpa using h),
      List.getElem_map, List.getD_eq_getElem rows [] h]
  · rw [List.getD_eq_default (rows.map (fun r => r.getD t 0)) 0 (by simpa using h),
      List.getD_eq_default rows [] h]
    rfl

theorem map_getD_list (f : FSRSItem → List Nat) (items : List FSRSItem) (i : Nat)
    (hi : i < items.length) :
    (items.map f).getD i [] = f (items.getD i default) := by
  rw [List.getD_eq_getElem _ _ (by simpa using hi), List.getElem_map,
    List.getD_eq_getElem _ _ hi]

/-- Claim C4: for a non-empty batch of items each with at least one
review, the batcher succeeds, the two history tensors have `pad_size`
rows (`pad_size` = maximum review count minus one) of `batch_size`
entries each, entry `(t, i)` is item `i`'s history value at time `t`
right-padded with `0`, and in particular every position beyond item
`i`'s true history length holds the pad sentinel `0`. -/
theorem batch_history_shape_and_padding (items : List FSRSItem) (m : Nat)
    (hm : listMaxNat (items.map (fun it => it.reviews.length)) = some m)
    (hne : ∀ it ∈ items, it.reviews ≠ []) :
    ∃ b : FSRSBatch, FSRSBatcher.batch items = some b ∧
      b.t_historys.length = m - 1 ∧
      b.r_historys.length = m - 1 ∧
      (∀ row ∈ b.t_historys, row.length = items.length) ∧
      (∀ row ∈ b.r_historys, row.length = items.length) ∧
      (∀ t i, t < m - 1 → i < items.length →
        (b.t_historys.getD t []).getD i 0 =
          ((items.getD i default).history.map (fun r => r.delta_t)).getD t 0 ∧
        (b.r_historys.getD t []).getD i 0 =
          ((items.getD i default).history.map (fun r => r.rating)).getD t 0) ∧
      (∀ t i, t < m - 1 → i < items.length →
        (items.getD i default).history.length ≤ t →
        (b.t_historys.getD t []).getD i 0 = 0 ∧
        (b.r_historys.getD t []).getD i 0 = 0) := by
  obtain ⟨cs, hc⟩ := collectCurrents_exists items hne
  have hhist : ∀ i, i < items.length →
      (items.getD i default).history.length ≤ m - 1 := by
    intro i hi
    have hmem : items.getD i default ∈ items := by
      rw [List.getD_eq_getElem _ _ hi]
      exact List.getElem_mem hi
    have hle : (items.getD i default).reviews.length ≤ m :=
      listMaxNat_le _ m hm _ (List.mem_map_of_mem (fun it => it.reviews.length) hmem)
    rw [history_length]
    exact Nat.sub_le_sub_right hle 1
  have hentry : ∀ (f : FSRSReview → Nat) t i, t < m - 1 → i < items.length →
      ((transposeT (m - 1)
        (items.map (fun it => vecResize (it.history.map f) (m - 1)))).getD t []).getD i 0 =
      ((items.getD i default).history.map f).getD t 0 := by
    intro f t i ht hi
    rw [transposeT_getD _ _ _ _ ht,
      map_getD_list (fun it => vecResize (it.history.map f) (m - 1)) items i hi,
      vecResize_getD _ _ _ (by simpa using hhist i hi)]
  refine ⟨_, batch_eq_some items m cs hm hc, ?_, ?_, ?_, ?_, ?_, ?_⟩
  · simp [transposeT]
  · simp [transposeT]
  · intro row hrow
    obtain ⟨t, ht, rfl⟩ := List.mem_map.mp hrow
    simp
  · intro row hrow
    obtain ⟨t, ht, rfl⟩ := List.mem_map.mp hrow
    simp
  · intro t i ht hi
    exact ⟨hentry (fun r => r.delta_t) t i ht hi, hentry (fun r => r.rating) t i ht hi⟩
  · intro t i ht hi hbeyond
    constructor
    · rw [hentry (fun r => r.delta_t) t i ht hi]
      exact List.getD_eq_default _ _ (by simpa using hbeyond)
    · rw [hentry (fun r => r.rating) t i ht hi]
      exact List.getD_eq_default _ _ (by simpa using hbeyond)

theorem batch_history_shape_and_padding_witness :
    ∃ b : FSRSBatch,
      FSRSBatcher.batch [⟨[⟨4, 0⟩, ⟨3, 5⟩]⟩, ⟨[⟨1, 2⟩]⟩] = some b ∧
      b.t_historys.length = 1 ∧
      (∀ row ∈ b.t_historys, row.length = 2) := by
  obtain ⟨b, h1, h2, h3, h4, h5, h6, h7⟩ :=
    batch_history_shape_and_padding [⟨[⟨4, 0⟩, ⟨3, 5⟩]⟩, ⟨[⟨1, 2⟩]⟩] 2
      (by decide) (by decide)
  exact ⟨b, h1, h2, by simpa using h4⟩

theorem sumLens_nil : sumLens [] = 0 := rfl

theorem sumLens_cons (p : Nat × List FSRSItem) (l : List (Nat × List FSRSItem)) :
    sumLens (p :: l) = p.2.length + sumLens l := by
  simp [sumLens]

theorem sumLens_perm (l1 l2 : List (Nat × List FSRSItem)) (h : l1.Perm l2) :
    sumLens l1 = sumLens l2 := by
  unfold sumLens
  exact (h.map _).sum_eq

theorem removePass_length_le (budget : Nat) (l : List (Nat × List FSRSItem))
    (removed : Nat) :
    (removePass budget removed l).length ≤ sumLens l := by
  induction l generalizing removed with
  | nil => simp [removePass, sumLens]
  | cons p rest ih =>
    obtain ⟨dt, sg⟩ := p
    simp only [removePass]
    by_cases h : budget < removed + sg.length
    · rw [if_pos h]
      have h2 := ih removed
      simp only [sumLens_cons, List.length_append]
      omega
    · rw [if_neg h]
      have h2 := ih (removed + sg.length)
      simp only [sumLens_cons]
      omega

theorem removePass_lower (budget : Nat) (l : List (Nat × List FSRSItem))
    (removed : Nat) (h : removed ≤ budget) :
    sumLens l + removed ≤ (removePass budget removed l).length + budget := by
  induction l generalizing removed with
  | nil =>
    rw [sumLens_nil]
    omega
  | cons p rest ih =>
    obtain ⟨dt, sg⟩ := p
    simp only [removePass]
    by_cases hc : budget < removed + sg.length
    · rw [if_pos hc]
      have h2 := ih removed h
      simp only [sumLens_cons, List.length_append]
      omega
    · rw [if_neg hc]
      have h2 := ih (removed + sg.length) (by omega)
      simp only [sumLens_cons]
      omega

theorem count_map_eq_countP (key : FSRSItem → Nat) (items : List FSRSItem) (k : Nat) :
    (items.map key).count k = items.countP (fun it => key it == k) := by
  induction items with
  | nil => rfl
  | cons it rest ih =>
    simp [List.count_cons, List.countP_cons, ih]

theorem sumLens_groupByKey (key : FSRSItem → Nat) (items : List FSRSItem) :
    sumLens (groupByKey key items) = items.length := by
  unfold sumLens groupByKey groupKeys
  rw [List.map_map]
  have hfun : ((fun p : Nat × List FSRSItem => p.2.length) ∘
      (fun k => (k, items.filter (fun it => key it == k)))) =
      fun k => (items.map key).count k := by
    funext k
    simp only [Function.comp]
    rw [← List.countP_eq_length_filter, count_map_eq_countP]
  rw [hfun]
  have h := List.sum_map_count_dedup_eq_length (items.map key)
  simpa using h

theorem sortSubGroups_perm (sgs : List (Nat × List FSRSItem)) :
    (sortSubGroups sgs).Perm sgs :=
  List.perm_insertionSort _ _

theorem sortSubGroups_sorted (sgs : List (Nat × List FSRSItem)) :
    List.Sorted subGroupRank (sortSubGroups sgs) :=
  List.sorted_insertionSort _ _

/-- Claim C1: for every input item list and every rating group formed by
`filter_outlier` (grouping by the first review's rating), the number of
items removed from that rating group is at most `total / 20` (integer
division), where `total` is the number of items in the rating group. -/
theorem filter_outlier_removed_le_budget (items : List FSRSItem) (k : Nat)
    (g : List FSRSItem) (_hg : (k, g) ∈ groupByKey firstRating items) :
    (ratingGroupOutput (groupByKey currentDelta g)).length ≤ g.length ∧
    g.length - (ratingGroupOutput (groupByKey currentDelta g)).length ≤
      g.length / 20 := by
  have hsum : sumLens (groupByKey currentDelta g) = g.length :=
    sumLens_groupByKey _ _
  have hsorted : sumLens (sortSubGroups (groupByKey currentDelta g)) = g.length := by
    rw [sumLens_perm _ _ (sortSubGroups_perm _), hsum]
  have hrev : sumLens (sortSubGroups (groupByKey currentDelta g)).reverse = g.length := by
    rw [sumLens_perm _ _ (List.reverse_perm _), hsorted]
  have hout : ratingGroupOutput (groupByKey currentDelta g) =
      removePass (g.length / 20) 0
        (sortSubGroups (groupByKey currentDelta g)).reverse := by
    simp only [ratingGroupOutput]
    rw [hsorted]
  rw [hout]
  have h1 := removePass_length_le (g.length / 20)
    (sortSubGroups (groupByKey currentDelta g)).reverse 0
  have h2 := removePass_lower (g.length / 20)
    (sortSubGroups (groupByKey currentDelta g)).reverse 0 (Nat.zero_le _)
  rw [hrev] at h1 h2
  omega

theorem filter_outlier_removed_le_budget_witness :
    (ratingGroupOutput (groupByKey currentDelta [⟨[⟨1, 0⟩, ⟨1, 1⟩]⟩])).length ≤
      ([⟨[⟨1, 0⟩, ⟨1, 1⟩]⟩] : List FSRSItem).length ∧
    ([⟨[⟨1, 0⟩, ⟨1, 1⟩]⟩] : List FSRSItem).length -
      (ratingGroupOutput (groupByKey currentDelta [⟨[⟨1, 0⟩, ⟨1, 1⟩]⟩])).length ≤
      ([⟨[⟨1, 0⟩, ⟨1, 1⟩]⟩] : List FSRSItem).length / 20 :=
  filter_outlier_removed_le_budget [⟨[⟨1, 0⟩, ⟨1, 1⟩]⟩] 1 [⟨[⟨1, 0⟩, ⟨1, 1⟩]⟩]
    (by decide)

theorem removePass_all_retained (budget : Nat) (l : List (Nat × List FSRSItem))
    (removed : Nat) (h : ∀ p ∈ l, budget < removed + p.2.length) :
    removePass budget removed l = l.flatMap (fun p => p.2) := by
  induction l generalizing removed with
  | nil => rfl
  | cons p rest ih =>
    obtain ⟨dt, sg⟩ := p
    simp only [removePass]
    rw [if_pos (by simpa using h (dt, sg) (List.mem_cons_self _ _)),
      List.flatMap_cons, ih removed (fun q hq => h q (List.mem_cons_of_mem _ hq))]

theorem removePass_greedy_split (budget : Nat) :
    ∀ (l : List (Nat × List FSRSItem)) (removed : Nat),
      l.Pairwise (fun a b => a.2.length ≤ b.2.length) → removed ≤ budget →
      ∃ n, n ≤ l.length ∧
        removePass budget removed l = (l.drop n).flatMap (fun p => p.2) ∧
        removed + sumLens (l.take n) ≤ budget ∧
        (n < l.length → budget < removed + sumLens (l.take (n + 1))) := by
  intro l
  induction l with
  | nil =>
    intro removed _ hr
    exact ⟨0, Nat.le_refl _, rfl, by simpa [sumLens_nil] using hr, fun h => absurd h (by simp)⟩
  | cons p rest ih =>
    intro removed hasc hr
    obtain ⟨dt, sg⟩ := p
    rcases List.pairwise_cons.mp hasc with ⟨hhead, htail⟩
    by_cases hc : budget < removed + sg.length
    · refine ⟨0, Nat.zero_le _, ?_, by simpa [sumLens_nil] using hr, fun _ => ?_⟩
      · simp only [removePass]
        rw [if_pos hc, List.drop_zero, List.flatMap_cons,
          removePass_all_retained budget rest removed
            (fun q hq => by
              have h3 : sg.length ≤ q.2.length := hhead q hq
              omega)]
      · rw [List.take_succ_cons, List.take_zero, sumLens_cons, sumLens_nil]
        simpa using hc
    · have hle : removed + sg.length ≤ budget := Nat.not_lt.mp hc
      obtain ⟨n, hn, hout, hbud, hnext⟩ := ih (removed + sg.length) htail hle
      refine ⟨n + 1, by simpa using Nat.succ_le_succ hn, ?_, ?_, ?_⟩
      · simp only [removePass]
        rw [if_neg hc, List.drop_succ_cons]
        exact hout
      · simp only [List.take_succ_cons, sumLens_cons]
        omega
      · intro hlt
        have hlt2 : n < rest.length := by simpa using hlt
        have h2 := hnext hlt2
        simp only [List.take_succ_cons, sumLens_cons]
        omega

theorem sorted_reverse_ascending (sgs : List (Nat × List FSRSItem)) :
    (sortSubGroups sgs).reverse.Pairwise (fun a b => a.2.length ≤ b.2.length) := by
  rw [List.pairwise_reverse]
  exact (sortSubGroups_sorted sgs).imp (fun {a b} h => by
    unfold subGroupRank at h
    omega)

/-- Claim C2: within each rating group of `filter_outlier`, the delta_t
sub-groups are ranked by size descending with ties broken by delta_t
ascending (the sort result is a permutation of the sub-groups sorted by
`subGroupRank`); the removal pass walks the reverse of the ranking and
removes a maximal initial run of that walk whose cumulative size stays
at or under the `total / 20` budget, retaining all later sub-groups in
walk order; consequently no removed sub-group is larger than any
retained sub-group ranked above it. -/
theorem filter_outlier_rank_and_removal_order (items : List FSRSItem) (k : Nat)
    (g : List FSRSItem) (_hg : (k, g) ∈ groupByKey firstRating items) :
    (sortSubGroups (groupByKey currentDelta g)).Perm (groupByKey currentDelta g) ∧
    List.Sorted subGroupRank (sortSubGroups (groupByKey currentDelta g)) ∧
    ∃ n, n ≤ (sortSubGroups (groupByKey currentDelta g)).length ∧
      ratingGroupOutput (groupByKey currentDelta g) =
        ((sortSubGroups (groupByKey currentDelta g)).reverse.drop n).flatMap
          (fun p => p.2) ∧
      sumLens ((sortSubGroups (groupByKey currentDelta g)).reverse.take n) ≤
        g.length / 20 ∧
      (n < (sortSubGroups (groupByKey currentDelta g)).length →
        g.length / 20 <
          sumLens ((sortSubGroups (groupByKey currentDelta g)).reverse.take (n + 1))) ∧
      ∀ p ∈ (sortSubGroups (groupByKey currentDelta g)).reverse.take n,
        ∀ q ∈ (sortSubGroups (groupByKey currentDelta g)).reverse.drop n,
          p.2.length ≤ q.2.length := by
  have hperm := sortSubGroups_perm (groupByKey currentDelta g)
  have hsorted := sortSubGroups_sorted (groupByKey currentDelta g)
  have hsum : sumLens (sortSubGroups (groupByKey currentDelta g)) = g.length := by
    rw [sumLens_perm _ _ hperm, sumLens_groupByKey]
  have hasc := sorted_reverse_ascending (groupByKey currentDelta g)
  obtain ⟨n, hn, hout, hbud, hnext⟩ := removePass_greedy_split (g.length / 20)
    (sortSubGroups (groupByKey currentDelta g)).reverse 0 hasc (Nat.zero_le _)
  have houtput : ratingGroupOutput (groupByKey currentDelta g) =
      removePass (g.length / 20) 0
        (sortSubGroups (groupByKey currentDelta g)).reverse := by
    simp only [ratingGroupOutput]
    rw [hsum]
  refine ⟨hperm, hsorted, n, by simpa using hn, ?_, by simpa using hbud, ?_, ?_⟩
  · rw [houtput, hout]
  · intro hlt
    have h2 := hnext (by simpa using hlt)
    simpa using h2
  · intro p hp q hq
    have hpair := hasc
    rw [← List.take_append_drop n
      (sortSubGroups (groupByKey currentDelta g)).reverse] at hpair
    rcases List.pairwise_append.mp hpair with ⟨_, _, hcross⟩
    exact hcross p hp q hq

theorem filter_outlier_rank_and_removal_order_witness :
    (sortSubGroups (groupByKey currentDelta [⟨[⟨2, 0⟩, ⟨3, 4⟩]⟩])).Perm
      (groupByKey currentDelta [⟨[⟨2, 0⟩, ⟨3, 4⟩]⟩]) ∧
    List.Sorted subGroupRank
      (sortSubGroups (groupByKey currentDelta [⟨[⟨2, 0⟩, ⟨3, 4⟩]⟩])) := by
  obtain ⟨h1, h2, _⟩ := filter_outlier_rank_and_removal_order
    [⟨[⟨2, 0⟩, ⟨3, 4⟩]⟩] 2 [⟨[⟨2, 0⟩, ⟨3, 4⟩]⟩] (by decide)
  exact ⟨h1, h2⟩

/-- Claim C9 counterexample: the claim says `history()` (among the
operations consuming a zero-review item) fails fast with an error, but in
the source `history()` is `reviews.iter().take(reviews.len() - 1)`; on a
zero-review item the `usize` subtraction wraps (release semantics) and
`take` of the empty iterator yields the empty sequence, so `history()`
returns a perfectly ordinary empty history — a total result, not an
error — while `current()` on the very same item does fail. -/
theorem history_zero_reviews_counterexample :
    (FSRSItem.mk []).history = [] ∧ (FSRSItem.mk []).current = none := by
  decide

/-- Claim C9 amended: an item with zero reviews makes `current()`,
`filter_outlier` and batching fail fast (the `unwrap`/`expect` panics,
modelled as `none`), but `history()` does not fail — it returns the
empty history. -/
theorem zero_review_fail_fast_amended (items : List FSRSItem) (it : FSRSItem)
    (h1 : it ∈ items) (h2 : it.reviews = []) :
    it.current = none ∧ filter_outlier items = none ∧
    FSRSBatcher.batch items = none ∧ it.history = [] := by
  refine ⟨(current_eq_none_iff it).mpr h2, ?_, ?_, ?_⟩
  · unfold filter_outlier
    rw [if_neg]
    intro hall
    rw [List.all_eq_true] at hall
    have h3 := hall it h1
    rw [h2] at h3
    simp at h3
  · have hc : collectCurrents items = none :=
      (collectCurrents_eq_none_iff items).mpr ⟨it, h1, h2⟩
    cases hm : listMaxNat (items.map (fun it => it.reviews.length)) with
    | none =>
      unfold FSRSBatcher.batch
      rw [hm]
    | some m =>
      unfold FSRSBatcher.batch
      rw [hm, hc]
  · rw [FSRSItem.history, h2]
    rfl

theorem zero_review_fail_fast_amended_witness :
    (FSRSItem.mk []).current = none ∧ filter_outlier [FSRSItem.mk []] = none ∧
    FSRSBatcher.batch [FSRSItem.mk []] = none ∧ (FSRSItem.mk []).history = [] :=
  zero_review_fail_fast_amended [FSRSItem.mk []] (FSRSItem.mk []) (by decide) rfl
